import Mathlib

/-!
Shallow embedding of `src/strqueue.cpp` (namespace `cxx`): an in-memory
registry of string queues addressed by `unsigned long` handles.

Modelling choices, read off the source:

* A C string (`const char *` / `std::string`) is a byte sequence, modelled as
  `List Nat`.  A nullable `const char *` argument or return value is
  `Option Str` (`none` = `NULL`).
* `std::deque<std::string>` is `List Str`.
* The global `std::unordered_map<unsigned long, std::deque<std::string>>`
  (`get_queues`) is a finite partial map, modelled as a function
  `Nat → Option (List Str)`; `find` is application, `queues[k] = v` is a
  pointwise update, `erase` sets the key to `none`.
* The global counter `cnt` (`get_cnt`) is a `Nat`; `unsigned long` is 64-bit
  on the target platform, and the only place its width matters is the
  `assert(cnt < numeric_limits<unsigned long>::max())` in `strqueue_new`,
  which we model by having `strqueue_new` return `none` (abnormal stop)
  when `cnt` has reached `ULONG_MAX`.
* The `debug_*` logging helpers write to `cerr` only and never touch the
  registry; they are omitted (the spec calls the logging sink purely
  observational).
-/

/-- A byte string (contents of a `std::string` / non-null `const char *`). -/
abbrev Str := List Nat

/-- The global state of `strqueue.cpp`: the handle counter `cnt` and the
handle → queue map `queues`. -/
structure Registry where
  cnt : Nat
  queues : Nat → Option (List Str)

/-- The initial state: `cnt = 0`, no queues (static initialisation of the
globals behind `get_cnt` and `get_queues`). -/
def initRegistry : Registry := ⟨0, fun _ => none⟩

/-- `queues[k] = v` on an `unordered_map`: add or overwrite the mapping. -/
def mapUpdate (m : Nat → Option (List Str)) (k : Nat) (v : List Str) :
    Nat → Option (List Str) :=
  fun h => if h = k then some v else m h

/-- `queues.erase(it)` where `it = queues.find(k)`: drop the mapping. -/
def mapErase (m : Nat → Option (List Str)) (k : Nat) :
    Nat → Option (List Str) :=
  fun h => if h = k then none else m h

/-- `numeric_limits<unsigned long>::max()` = 2^64 - 1 on the target. -/
def ULONG_MAX : Nat := 18446744073709551615

/-- `cxx::strqueue_new`: asserts `cnt < ULONG_MAX` (modelled as returning
`none`, i.e. abnormal termination, when the assertion fails), then stores an
empty queue at key `cnt` and returns the pre-increment value of `cnt`. -/
def strqueue_new (s : Registry) : Option (Nat × Registry) :=
  if s.cnt < ULONG_MAX then
    some (s.cnt, ⟨s.cnt + 1, mapUpdate s.queues s.cnt []⟩)
  else
    none

/-- `cxx::strqueue_delete`: erase the queue if the handle is present,
otherwise return (only a diagnostic is logged). -/
def strqueue_delete (id : Nat) (s : Registry) : Registry :=
  match s.queues id with
  | none => s
  | some _ => ⟨s.cnt, mapErase s.queues id⟩

/-- `cxx::strqueue_size`: 0 when the handle is unknown, else the queue's
length. -/
def strqueue_size (id : Nat) (s : Registry) : Nat :=
  match s.queues id with
  | none => 0
  | some q => q.length

/-- `queue.insert(deque_get_iterator_at(queue, position), v)`: the iterator
walk advances `position` steps from `begin`, and `insert` places `v` before
that point.  (The call site guarantees `position < queue.size()`, so the
walk never runs off the end; the `[]` fallback is arbitrary but total.) -/
def dequeInsertAt : List Str → Nat → Str → List Str
  | q, 0, v => v :: q
  | [], _ + 1, v => [v]
  | x :: xs, p + 1, v => x :: dequeInsertAt xs p v

/-- `cxx::strqueue_insert_at`: no-op when the handle is unknown or `str` is
`NULL`; otherwise `push_back` when `size <= position`, else insert at
`position`. -/
def strqueue_insert_at (id : Nat) (position : Nat) (str : Option Str)
    (s : Registry) : Registry :=
  match s.queues id, str with
  | some q, some v =>
      ⟨s.cnt, mapUpdate s.queues id
        (if q.length ≤ position then q ++ [v]
         else dequeInsertAt q position v)⟩
  | _, _ => s

/-- `queue.erase(deque_get_iterator_at(queue, position))`: remove the element
`position` steps from `begin` (call site guarantees `position < size`). -/
def dequeEraseAt : List Str → Nat → List Str
  | [], _ => []
  | _ :: xs, 0 => xs
  | x :: xs, p + 1 => x :: dequeEraseAt xs p

/-- `cxx::strqueue_remove_at`: no-op when the handle is unknown or
`size <= position`; otherwise erase the element at `position`. -/
def strqueue_remove_at (id : Nat) (position : Nat) (s : Registry) : Registry :=
  match s.queues id with
  | none => s
  | some q =>
      if q.length ≤ position then s
      else ⟨s.cnt, mapUpdate s.queues id (dequeEraseAt q position)⟩

/-- Read the element `position` steps from `begin` (`none` past the end). -/
def dequeGetAt : List Str → Nat → Option Str
  | [], _ => none
  | x :: _, 0 => some x
  | _ :: xs, p + 1 => dequeGetAt xs p

/-- `cxx::strqueue_get_at`: `NULL` (here `none`) when the handle is unknown
or `size <= position`; otherwise the string at `position`. -/
def strqueue_get_at (id : Nat) (position : Nat) (s : Registry) : Option Str :=
  match s.queues id with
  | none => none
  | some q =>
      if q.length ≤ position then none
      else dequeGetAt q position

/-- `cxx::strqueue_clear`: no-op when the handle is unknown; otherwise
`queue.clear()`, i.e. the handle now maps to the empty queue. -/
def strqueue_clear (id : Nat) (s : Registry) : Registry :=
  match s.queues id with
  | none => s
  | some _ => ⟨s.cnt, mapUpdate s.queues id []⟩

/-- `std::lexicographical_compare` over a strict-less `lt` on elements,
which is what `operator<` does on both `std::string` (over bytes) and
`std::deque<std::string>` (over strings): scan while elements are
equivalent; a first range that runs out first is less. -/
def lexLt (lt : α → α → Bool) : List α → List α → Bool
  | _, [] => false
  | [], _ :: _ => true
  | x :: xs, y :: ys => lt x y || (!lt y x && lexLt lt xs ys)

/-- Byte order used by `std::string` comparison (`char_traits` compares as
unsigned char values). -/
def byteLt (a b : Nat) : Bool := a < b

/-- `operator<` on `std::string`. -/
def strLt : Str → Str → Bool := lexLt byteLt

/-- `operator<` on `std::deque<std::string>`. -/
def deqLt : List Str → List Str → Bool := lexLt strLt

/-- `cxx::strqueue_comp`: a missing handle stands for the empty queue;
result is -1 / 0 / 1 as `q1 < q2` / equal / `q1 > q2`.  The function reads
the registry through `const` references only, so it is embedded as a pure
function of the state. -/
def strqueue_comp (id1 id2 : Nat) (s : Registry) : Int :=
  let q1 := (s.queues id1).getD []
  let q2 := (s.queues id2).getD []
  if deqLt q1 q2 then -1
  else if deqLt q2 q1 then 1
  else 0

/-! ### The operation trace language (for the handle-allocation invariant)

One constructor per public operation that can change the registry; running a
trace from a state yields the final state and the list of handles returned
by the `strqueue_new` calls, or `none` if some `strqueue_new` hit the
exhaustion assertion. -/

/-- One call to a mutating operation of the public interface. -/
inductive Op where
  | opNew : Op
  | opDelete : Nat → Op
  | opInsertAt : Nat → Nat → Option Str → Op
  | opRemoveAt : Nat → Nat → Op
  | opClear : Nat → Op

/-- Run a sequence of calls, collecting the handles returned by
`strqueue_new`; `none` if an exhaustion assertion fired. -/
def runOps : Registry → List Op → Option (Registry × List Nat)
  | s, [] => some (s, [])
  | s, Op.opNew :: rest =>
      match strqueue_new s with
      | none => none
      | some (h, s1) =>
          match runOps s1 rest with
          | none => none
          | some (s2, hs) => some (s2, h :: hs)
  | s, Op.opDelete id :: rest => runOps (strqueue_delete id s) rest
  | s, Op.opInsertAt id p v :: rest => runOps (strqueue_insert_at id p v s) rest
  | s, Op.opRemoveAt id p :: rest => runOps (strqueue_remove_at id p s) rest
  | s, Op.opClear id :: rest => runOps (strqueue_clear id s) rest

/-! ### Specification-side comparison (for the refinement claim about
`strqueue_comp`)

`specQueueCmp` is written from the spec's words, not from the code: compare
"element-by-element using the natural ordering of strings
(byte/character-wise), with a shorter queue that is a strict prefix of a
longer one ordering as less". -/

/-- Three-way lexicographic comparison of lists from a three-way comparison
of elements: element-by-element, the shorter strict prefix is less. -/
def ordCmp (c : α → α → Ordering) : List α → List α → Ordering
  | [], [] => Ordering.eq
  | [], _ :: _ => Ordering.lt
  | _ :: _, [] => Ordering.gt
  | x :: xs, y :: ys =>
      match c x y with
      | Ordering.eq => ordCmp c xs ys
      | o => o

/-- Natural three-way order on bytes. -/
def specByteCmp (a b : Nat) : Ordering :=
  if a < b then Ordering.lt else if b < a then Ordering.gt else Ordering.eq

/-- Natural (byte-wise lexicographic) three-way order on strings. -/
def specStrCmp : Str → Str → Ordering := ordCmp specByteCmp

/-- The spec's queue comparison: element-by-element by `specStrCmp`, strict
prefix is less. -/
def specQueueCmp : List Str → List Str → Ordering := ordCmp specStrCmp

/-- Encode an `Ordering` the way `strqueue_comp` reports it. -/
def ordToInt : Ordering → Int
  | Ordering.lt => -1
  | Ordering.eq => 0
  | Ordering.gt => 1

/-! ### Order-theoretic facts about `lexLt`

`lexLt lt` is a strict total order on lists whenever `lt` is a strict total
order on elements; the element-level hypotheses are passed explicitly so the
lemmas can be applied first at bytes and then at strings. -/

theorem lexLt_irrefl (lt : α → α → Bool) (hirr : ∀ a, lt a a = false) :
    ∀ xs, lexLt lt xs xs = false := by
  intro xs
  induction xs with
  | nil => simp [lexLt]
  | cons x xs ih => simp [lexLt, hirr x, ih]

theorem lexLt_not_both (lt : α → α → Bool) (hirr : ∀ a, lt a a = false)
    (htr : ∀ a b c, lt a b = true → lt b c = true → lt a c = true) :
    ∀ xs ys, lexLt lt xs ys = true → lexLt lt ys xs = true → False := by
  intro xs
  induction xs with
  | nil =>
    intro ys h1 h2
    cases ys with
    | nil => simp [lexLt] at h1
    | cons y ys => simp [lexLt] at h2
  | cons x xs ih =>
    intro ys h1 h2
    cases ys with
    | nil => simp [lexLt] at h1
    | cons y ys =>
      simp only [lexLt, Bool.or_eq_true, Bool.and_eq_true,
        Bool.not_eq_true'] at h1 h2
      rcases h1 with hxy | ⟨hyx, hrec1⟩
      · rcases h2 with hyx | ⟨hxy', _⟩
        · exact absurd (htr _ _ _ hxy hyx) (by simp [hirr x])
        · exact absurd hxy (by simp [hxy'])
      · rcases h2 with hyx' | ⟨_, hrec2⟩
        · exact absurd hyx' (by simp [hyx])
        · exact ih ys hrec1 hrec2

theorem lexLt_asymm (lt : α → α → Bool) (hirr : ∀ a, lt a a = false)
    (htr : ∀ a b c, lt a b = true → lt b c = true → lt a c = true)
    (xs ys : List α) (h : lexLt lt xs ys = true) : lexLt lt ys xs = false := by
  cases hb : lexLt lt ys xs with
  | false => rfl
  | true => exact absurd (lexLt_not_both lt hirr htr xs ys h hb) (fun f => f)

theorem lexLt_conn (lt : α → α → Bool)
    (hco : ∀ a b, lt a b = false → lt b a = false → a = b) :
    ∀ xs ys, lexLt lt xs ys = false → lexLt lt ys xs = false → xs = ys := by
  intro xs
  induction xs with
  | nil =>
    intro ys h1 _
    cases ys with
    | nil => rfl
    | cons y ys => simp [lexLt] at h1
  | cons x xs ih =>
    intro ys h1 h2
    cases ys with
    | nil => simp [lexLt] at h2
    | cons y ys =>
      cases hxy : lt x y with
      | true => simp [lexLt, hxy] at h1
      | false =>
        cases hyx : lt y x with
        | true => simp [lexLt, hyx] at h2
        | false =>
          simp only [lexLt, hxy, hyx, Bool.false_or, Bool.not_false,
            Bool.true_and] at h1 h2
          rw [hco x y hxy hyx, ih ys h1 h2]

theorem lexLt_trans (lt : α → α → Bool)
    (htr : ∀ a b c, lt a b = true → lt b c = true → lt a c = true)
    (hco : ∀ a b, lt a b = false → lt b a = false → a = b) :
    ∀ xs ys zs, lexLt lt xs ys = true → lexLt lt ys zs = true →
      lexLt lt xs zs = true := by
  intro xs
  induction xs with
  | nil =>
    intro ys zs h1 h2
    cases ys with
    | nil => simp [lexLt] at h1
    | cons y ys =>
      cases zs with
      | nil => simp [lexLt] at h2
      | cons z zs => simp [lexLt]
  | cons x xs ih =>
    intro ys zs h1 h2
    cases ys with
    | nil => simp [lexLt] at h1
    | cons y ys =>
      cases zs with
      | nil => simp [lexLt] at h2
      | cons z zs =>
        simp only [lexLt, Bool.or_eq_true, Bool.and_eq_true,
          Bool.not_eq_true'] at h1 h2 ⊢
        rcases h1 with hxy | ⟨hyx, hrec1⟩
        · rcases h2 with hyz | ⟨hzy, _⟩
          · exact Or.inl (htr _ _ _ hxy hyz)
          · left
            cases hxz : lt x z with
            | true => rfl
            | false =>
              cases hzx : lt z x with
              | true => exact absurd (htr _ _ _ hzx hxy) (by simp [hzy])
              | false =>
                cases hco _ _ hxz hzx
                exact absurd hxy (by simp [hzy])
        · rcases h2 with hyz | ⟨hzy, hrec2⟩
          · left
            cases hxy : lt x y with
            | true => exact htr _ _ _ hxy hyz
            | false =>
              cases hco _ _ hxy hyx
              exact hyz
          · right
            refine ⟨?_, ih ys zs hrec1 hrec2⟩
            cases hzx : lt z x with
            | false => rfl
            | true =>
              cases hxy : lt x y with
              | true => exact absurd (htr _ _ _ hzx hxy) (by simp [hzy])
              | false =>
                cases hco _ _ hxy hyx
                exact absurd hzx (by simp [hzy])

/-! ### Element-level facts for bytes, lifted to strings and queues -/

theorem byteLt_irrefl : ∀ a, byteLt a a = false := by
  intro a; simp [byteLt]

theorem byteLt_trans : ∀ a b c, byteLt a b = true → byteLt b c = true →
    byteLt a c = true := by
  intro a b c h1 h2
  simp only [byteLt, decide_eq_true_eq] at h1 h2 ⊢
  omega

theorem byteLt_conn : ∀ a b, byteLt a b = false → byteLt b a = false →
    a = b := by
  intro a b h1 h2
  simp only [byteLt, decide_eq_false_iff_not] at h1 h2
  omega

theorem strLt_irrefl : ∀ a : Str, strLt a a = false :=
  lexLt_irrefl byteLt byteLt_irrefl

theorem strLt_trans : ∀ a b c : Str, strLt a b = true → strLt b c = true →
    strLt a c = true :=
  lexLt_trans byteLt byteLt_trans byteLt_conn

theorem strLt_conn : ∀ a b : Str, strLt a b = false → strLt b a = false →
    a = b :=
  lexLt_conn byteLt byteLt_conn

theorem deqLt_irrefl : ∀ q : List Str, deqLt q q = false :=
  lexLt_irrefl strLt strLt_irrefl

theorem deqLt_trans : ∀ a b c : List Str, deqLt a b = true →
    deqLt b c = true → deqLt a c = true :=
  lexLt_trans strLt strLt_trans strLt_conn

theorem deqLt_asymm : ∀ a b : List Str, deqLt a b = true →
    deqLt b a = false :=
  lexLt_asymm strLt strLt_irrefl strLt_trans

theorem deqLt_conn : ∀ a b : List Str, deqLt a b = false →
    deqLt b a = false → a = b :=
  lexLt_conn strLt strLt_conn

/-! ### Correspondence between boolean `lexLt` and three-way `ordCmp` -/

theorem ordCmp_swap (c : α → α → Ordering)
    (hsw : ∀ a b, c a b = (c b a).swap) :
    ∀ xs ys, ordCmp c xs ys = (ordCmp c ys xs).swap := by
  intro xs
  induction xs with
  | nil =>
    intro ys
    cases ys <;> simp [ordCmp, Ordering.swap]
  | cons x xs ih =>
    intro ys
    cases ys with
    | nil => simp [ordCmp, Ordering.swap]
    | cons y ys =>
      simp only [ordCmp]
      rw [hsw x y]
      cases c y x <;> simp [Ordering.swap, ih ys]

theorem lexLt_iff_ordCmp_lt (lt : α → α → Bool) (c : α → α → Ordering)
    (h1 : ∀ a b, lt a b = true ↔ c a b = Ordering.lt)
    (h2 : ∀ a b, lt b a = true ↔ c a b = Ordering.gt) :
    ∀ xs ys, lexLt lt xs ys = true ↔ ordCmp c xs ys = Ordering.lt := by
  intro xs
  induction xs with
  | nil =>
    intro ys
    cases ys <;> simp [lexLt, ordCmp]
  | cons x xs ih =>
    intro ys
    cases ys with
    | nil => simp [lexLt, ordCmp]
    | cons y ys =>
      simp only [lexLt, ordCmp, Bool.or_eq_true, Bool.and_eq_true,
        Bool.not_eq_true']
      cases hc : c x y with
      | lt =>
        simp only [(h1 x y).mpr hc]
        simp
      | eq =>
        have hxy : lt x y = false := by
          cases hb : lt x y with
          | false => rfl
          | true => rw [(h1 x y).mp hb] at hc; cases hc
        have hyx : lt y x = false := by
          cases hb : lt y x with
          | false => rfl
          | true => rw [(h2 x y).mp hb] at hc; cases hc
        simp [hxy, hyx, ih ys]
      | gt =>
        have hxy : lt x y = false := by
          cases hb : lt x y with
          | false => rfl
          | true => rw [(h1 x y).mp hb] at hc; cases hc
        have hyx : lt y x = true := (h2 x y).mpr hc
        simp [hxy, hyx]

theorem specByteCmp_lt_iff : ∀ a b, byteLt a b = true ↔
    specByteCmp a b = Ordering.lt := by
  intro a b
  by_cases h : a < b
  · simp [byteLt, specByteCmp, h]
  · by_cases h' : b < a <;> simp [byteLt, specByteCmp, h, h']

theorem specByteCmp_gt_iff : ∀ a b, byteLt b a = true ↔
    specByteCmp a b = Ordering.gt := by
  intro a b
  by_cases h : a < b
  · have : ¬ b < a := by omega
    simp [byteLt, specByteCmp, h, this]
  · by_cases h' : b < a <;> simp [byteLt, specByteCmp, h, h']

theorem specByteCmp_swap : ∀ a b, specByteCmp a b = (specByteCmp b a).swap := by
  intro a b
  by_cases h : a < b
  · have : ¬ b < a := by omega
    simp [specByteCmp, h, this, Ordering.swap]
  · by_cases h' : b < a <;> simp [specByteCmp, h, h', Ordering.swap]

theorem specStrCmp_lt_iff : ∀ a b : Str, strLt a b = true ↔
    specStrCmp a b = Ordering.lt :=
  lexLt_iff_ordCmp_lt byteLt specByteCmp specByteCmp_lt_iff specByteCmp_gt_iff

theorem specStrCmp_swap : ∀ a b : Str, specStrCmp a b = (specStrCmp b a).swap :=
  ordCmp_swap specByteCmp specByteCmp_swap

theorem specStrCmp_gt_iff : ∀ a b : Str, strLt b a = true ↔
    specStrCmp a b = Ordering.gt := by
  intro a b
  rw [specStrCmp_swap a b, specStrCmp_lt_iff b a]
  cases specStrCmp b a <;> simp [Ordering.swap]

theorem specQueueCmp_lt_iff : ∀ a b : List Str, deqLt a b = true ↔
    specQueueCmp a b = Ordering.lt :=
  lexLt_iff_ordCmp_lt strLt specStrCmp specStrCmp_lt_iff specStrCmp_gt_iff

theorem specQueueCmp_swap : ∀ a b : List Str,
    specQueueCmp a b = (specQueueCmp b a).swap :=
  ordCmp_swap specStrCmp specStrCmp_swap

theorem specQueueCmp_gt_iff : ∀ a b : List Str, deqLt b a = true ↔
    specQueueCmp a b = Ordering.gt := by
  intro a b
  rw [specQueueCmp_swap a b, specQueueCmp_lt_iff b a]
  cases specQueueCmp b a <;> simp [Ordering.swap]

/-! ### Pointwise facts about the map model and the deque helpers -/

theorem mapUpdate_self (m : Nat → Option (List Str)) (k : Nat) (v : List Str) :
    mapUpdate m k v k = some v := by
  simp [mapUpdate]

theorem mapUpdate_other (m : Nat → Option (List Str)) (k h : Nat)
    (v : List Str) (hne : h ≠ k) : mapUpdate m k v h = m h := by
  simp [mapUpdate, hne]

theorem mapErase_self (m : Nat → Option (List Str)) (k : Nat) :
    mapErase m k k = none := by
  simp [mapErase]

theorem mapErase_other (m : Nat → Option (List Str)) (k h : Nat)
    (hne : h ≠ k) : mapErase m k h = m h := by
  simp [mapErase, hne]

theorem dequeGetAt_oob : ∀ (q : List Str) (p : Nat), q.length ≤ p →
    dequeGetAt q p = none := by
  intro q
  induction q with
  | nil => intro p _; rfl
  | cons x xs ih =>
    intro p hp
    cases p with
    | zero => simp at hp
    | succ p => exact ih p (by simpa using hp)

/-- With a live handle, `strqueue_get_at` is exactly `dequeGetAt` on its
queue (the explicit bounds check in the source only short-circuits the case
where `dequeGetAt` would return `none` anyway). -/
theorem strqueue_get_at_eq (s : Registry) (id p : Nat) (q : List Str)
    (hq : s.queues id = some q) :
    strqueue_get_at id p s = dequeGetAt q p := by
  unfold strqueue_get_at
  rw [hq]
  by_cases hle : q.length ≤ p
  · simp [hle, dequeGetAt_oob q p hle]
  · simp [hle]

theorem dequeInsertAt_length : ∀ (q : List Str) (p : Nat) (v : Str),
    (dequeInsertAt q p v).length = q.length + 1 := by
  intro q
  induction q with
  | nil => intro p v; cases p <;> rfl
  | cons x xs ih =>
    intro p v
    cases p with
    | zero => rfl
    | succ p => simp [dequeInsertAt, ih]

theorem dequeGetAt_insertAt_self : ∀ (q : List Str) (p : Nat) (v : Str),
    p ≤ q.length → dequeGetAt (dequeInsertAt q p v) p = some v := by
  intro q
  induction q with
  | nil =>
    intro p v hp
    have : p = 0 := by simpa using hp
    subst this
    rfl
  | cons x xs ih =>
    intro p v hp
    cases p with
    | zero => rfl
    | succ p => exact ih p v (by simpa using hp)

theorem dequeGetAt_insertAt_lt : ∀ (q : List Str) (p i : Nat) (v : Str),
    i < p → p ≤ q.length →
    dequeGetAt (dequeInsertAt q p v) i = dequeGetAt q i := by
  intro q
  induction q with
  | nil =>
    intro p i v hip hp
    have : p = 0 := by simpa using hp
    omega
  | cons x xs ih =>
    intro p i v hip hp
    cases p with
    | zero => omega
    | succ p =>
      cases i with
      | zero => rfl
      | succ i =>
        simp only [dequeInsertAt, dequeGetAt]
        exact ih p i v (by omega) (by simpa using hp)

theorem dequeGetAt_insertAt_ge : ∀ (q : List Str) (p i : Nat) (v : Str),
    p ≤ i → dequeGetAt (dequeInsertAt q p v) (i + 1) = dequeGetAt q i := by
  intro q
  induction q with
  | nil =>
    intro p i v hpi
    cases p with
    | zero => rfl
    | succ p =>
      show dequeGetAt [v] (i + 1) = dequeGetAt [] i
      simp [dequeGetAt]
  | cons x xs ih =>
    intro p i v hpi
    cases p with
    | zero => rfl
    | succ p =>
      cases i with
      | zero => omega
      | succ i =>
        simp only [dequeInsertAt, dequeGetAt]
        exact ih p i v (by omega)

theorem dequeEraseAt_length : ∀ (q : List Str) (p : Nat), p < q.length →
    (dequeEraseAt q p).length + 1 = q.length := by
  intro q
  induction q with
  | nil => intro p hp; simp at hp
  | cons x xs ih =>
    intro p hp
    cases p with
    | zero => rfl
    | succ p =>
      simp only [dequeEraseAt, List.length_cons]
      rw [ih p (by simpa using hp)]

theorem dequeGetAt_eraseAt_lt : ∀ (q : List Str) (p i : Nat), i < p →
    dequeGetAt (dequeEraseAt q p) i = dequeGetAt q i := by
  intro q
  induction q with
  | nil => intro p i _; rfl
  | cons x xs ih =>
    intro p i hip
    cases p with
    | zero => omega
    | succ p =>
      cases i with
      | zero => rfl
      | succ i =>
        simp only [dequeEraseAt, dequeGetAt]
        exact ih p i (by omega)

theorem dequeGetAt_eraseAt_ge : ∀ (q : List Str) (p i : Nat), p ≤ i →
    dequeGetAt (dequeEraseAt q p) i = dequeGetAt q (i + 1) := by
  intro q
  induction q with
  | nil => intro p i _; rfl
  | cons x xs ih =>
    intro p i hpi
    cases p with
    | zero => rfl
    | succ p =>
      cases i with
      | zero => omega
      | succ i =>
        simp only [dequeEraseAt, dequeGetAt]
        exact ih p i (by omega)

theorem dequeGetAt_append_self : ∀ (q : List Str) (v : Str),
    dequeGetAt (q ++ [v]) q.length = some v := by
  intro q
  induction q with
  | nil => intro v; rfl
  | cons x xs ih => intro v; simpa [dequeGetAt] using ih v

/-! ### Small state-level lemmas -/

theorem strqueue_delete_queues_self (h : Nat) (s : Registry) :
    (strqueue_delete h s).queues h = none := by
  unfold strqueue_delete
  cases hq : s.queues h with
  | none => exact hq
  | some q => exact mapErase_self s.queues h

theorem strqueue_size_of_none (s : Registry) (h : Nat)
    (hq : s.queues h = none) : strqueue_size h s = 0 := by
  simp [strqueue_size, hq]

theorem strqueue_get_at_of_none (s : Registry) (h p : Nat)
    (hq : s.queues h = none) : strqueue_get_at h p s = none := by
  simp [strqueue_get_at, hq]

theorem strqueue_insert_at_queues_self (s : Registry) (h p : Nat)
    (v : Str) (q : List Str) (hq : s.queues h = some q) :
    (strqueue_insert_at h p (some v) s).queues h =
      some (if q.length ≤ p then q ++ [v] else dequeInsertAt q p v) := by
  simp only [strqueue_insert_at, hq]
  exact mapUpdate_self s.queues h _

/-- A sample registry used by the concrete witnesses below: `cnt = 1` and
handle 0 maps to the one-element queue `[[97]]` (i.e. `{0 ↦ ["a"]}`). -/
def regSample : Registry := ⟨1, fun n => if n = 0 then some [[97]] else none⟩

/-- C1: `strqueue_insert_at` on a live queue appends when
`position ≥ size` (hence inserting into an empty queue always appends) and,
when `position < size`, places the value so it occupies `position` (earlier
elements are untouched, elements from `position` on shift up by one, the
size grows by one); with an unknown handle, or with a `NULL` value, it
performs no mutation at all. -/
theorem strqueue_insert_at_spec (s : Registry) (h p : Nat) (v : Str) :
    (∀ q, s.queues h = some q →
      (q.length ≤ p →
        (strqueue_insert_at h p (some v) s).queues h = some (q ++ [v])) ∧
      (p < q.length →
        strqueue_size h (strqueue_insert_at h p (some v) s) = q.length + 1 ∧
        strqueue_get_at h p (strqueue_insert_at h p (some v) s) = some v ∧
        (∀ i, i < p →
          strqueue_get_at h i (strqueue_insert_at h p (some v) s) =
            strqueue_get_at h i s) ∧
        (∀ i, p ≤ i →
          strqueue_get_at h (i + 1) (strqueue_insert_at h p (some v) s) =
            strqueue_get_at h i s))) ∧
    (s.queues h = none → ∀ v', strqueue_insert_at h p v' s = s) ∧
    (strqueue_insert_at h p none s = s) := by
  refine ⟨?_, ?_, ?_⟩
  · intro q hq
    constructor
    · intro hle
      rw [strqueue_insert_at_queues_self s h p v q hq, if_pos hle]
    · intro hlt
      have hq' : (strqueue_insert_at h p (some v) s).queues h =
          some (dequeInsertAt q p v) := by
        rw [strqueue_insert_at_queues_self s h p v q hq,
          if_neg (Nat.not_le.mpr hlt)]
      refine ⟨?_, ?_, ?_, ?_⟩
      · simp [strqueue_size, hq', dequeInsertAt_length]
      · rw [strqueue_get_at_eq _ _ _ _ hq',
          dequeGetAt_insertAt_self q p v (Nat.le_of_lt hlt)]
      · intro i hi
        rw [strqueue_get_at_eq _ _ _ _ hq', strqueue_get_at_eq _ _ _ _ hq,
          dequeGetAt_insertAt_lt q p i v hi (Nat.le_of_lt hlt)]
      · intro i hi
        rw [strqueue_get_at_eq _ _ _ _ hq', strqueue_get_at_eq _ _ _ _ hq,
          dequeGetAt_insertAt_ge q p i v hi]
  · intro hnone v'
    cases v' <;> simp [strqueue_insert_at, hnone]
  · cases hq : s.queues h <;> simp [strqueue_insert_at, hq]

theorem strqueue_insert_at_spec_witness :
    (strqueue_insert_at 0 5 (some [98]) regSample).queues 0 =
      some [[97], [98]] ∧
    strqueue_get_at 0 0 (strqueue_insert_at 0 0 (some [99]) regSample) =
      some [99] := by
  constructor
  · exact ((strqueue_insert_at_spec regSample 0 5 [98]).1 [[97]] rfl).1
      (by decide)
  · exact (((strqueue_insert_at_spec regSample 0 0 [99]).1 [[97]] rfl).2
      (by decide)).2.1

/-- C2: `strqueue_remove_at` at a valid position shrinks the queue by
exactly one and shifts the elements after `position` down by one (earlier
elements untouched); with an unknown handle or an out-of-range position the
registry is left completely unchanged. -/
theorem strqueue_remove_at_spec (s : Registry) (h p : Nat) :
    (∀ q, s.queues h = some q → p < q.length →
      strqueue_size h (strqueue_remove_at h p s) + 1 = strqueue_size h s ∧
      (∀ i, i < p →
        strqueue_get_at h i (strqueue_remove_at h p s) =
          strqueue_get_at h i s) ∧
      (∀ i, p ≤ i →
        strqueue_get_at h i (strqueue_remove_at h p s) =
          strqueue_get_at h (i + 1) s)) ∧
    (s.queues h = none → strqueue_remove_at h p s = s) ∧
    (∀ q, s.queues h = some q → q.length ≤ p →
      strqueue_remove_at h p s = s) := by
  refine ⟨?_, ?_, ?_⟩
  · intro q hq hlt
    have hq' : (strqueue_remove_at h p s).queues h =
        some (dequeEraseAt q p) := by
      simp only [strqueue_remove_at, hq, if_neg (Nat.not_le.mpr hlt)]
      exact mapUpdate_self s.queues h _
    refine ⟨?_, ?_, ?_⟩
    · simp only [strqueue_size, hq', hq]
      exact dequeEraseAt_length q p hlt
    · intro i hi
      rw [strqueue_get_at_eq _ _ _ _ hq', strqueue_get_at_eq _ _ _ _ hq,
        dequeGetAt_eraseAt_lt q p i hi]
    · intro i hi
      rw [strqueue_get_at_eq _ _ _ _ hq', strqueue_get_at_eq _ _ _ _ hq,
        dequeGetAt_eraseAt_ge q p i hi]
  · intro hnone
    simp [strqueue_remove_at, hnone]
  · intro q hq hle
    simp [strqueue_remove_at, hq, hle]

theorem strqueue_remove_at_spec_witness :
    (strqueue_size 0 (strqueue_remove_at 0 0 regSample) + 1 =
      strqueue_size 0 regSample) ∧
    strqueue_remove_at 0 7 regSample = regSample := by
  constructor
  · exact ((strqueue_remove_at_spec regSample 0 0).1 [[97]] rfl (by decide)).1
  · exact (strqueue_remove_at_spec regSample 0 7).2.2 [[97]] rfl (by decide)

/-- C5: a handle that names no live queue reads as empty: `strqueue_size`
returns 0 and `strqueue_get_at` returns `none` at every position; after
`strqueue_delete` the handle behaves, under both queries, identically to a
handle that was never created (i.e. to any handle of the pristine registry);
on a live handle `strqueue_size` returns the exact element count (it never
fails, being total by construction). -/
theorem unknown_handle_spec (s : Registry) (h : Nat) :
    (s.queues h = none →
      strqueue_size h s = 0 ∧ ∀ p, strqueue_get_at h p s = none) ∧
    (∀ p, strqueue_size h (strqueue_delete h s) =
        strqueue_size h initRegistry ∧
      strqueue_get_at h p (strqueue_delete h s) =
        strqueue_get_at h p initRegistry) ∧
    (∀ q, s.queues h = some q → strqueue_size h s = q.length) := by
  refine ⟨?_, ?_, ?_⟩
  · intro hq
    exact ⟨strqueue_size_of_none s h hq,
      fun p => strqueue_get_at_of_none s h p hq⟩
  · intro p
    have hdel := strqueue_delete_queues_self h s
    have hinit : initRegistry.queues h = none := rfl
    rw [strqueue_size_of_none _ h hdel, strqueue_size_of_none _ h hinit,
      strqueue_get_at_of_none _ h p hdel, strqueue_get_at_of_none _ h p hinit]
    exact ⟨rfl, rfl⟩
  · intro q hq
    simp [strqueue_size, hq]

theorem unknown_handle_spec_witness :
    (strqueue_size 3 regSample = 0 ∧
      ∀ p, strqueue_get_at 3 p regSample = none) ∧
    strqueue_size 0 regSample = 1 := by
  refine ⟨(unknown_handle_spec regSample 3).1 rfl, ?_⟩
  exact (unknown_handle_spec regSample 0).2.2 [[97]] rfl

/-- C6: `strqueue_clear` on a live handle leaves the handle live but its
queue empty (size 0, `strqueue_get_at` at 0 gives `none`, and the handle
still maps to a queue, namely `[]`); on an unknown handle it does not change
the registry at all. -/
theorem strqueue_clear_spec (s : Registry) (h : Nat) :
    (∀ q, s.queues h = some q →
      strqueue_size h (strqueue_clear h s) = 0 ∧
      strqueue_get_at h 0 (strqueue_clear h s) = none ∧
      (strqueue_clear h s).queues h = some []) ∧
    (s.queues h = none → strqueue_clear h s = s) := by
  constructor
  · intro q hq
    have hq' : (strqueue_clear h s).queues h = some [] := by
      simp only [strqueue_clear, hq]
      exact mapUpdate_self s.queues h []
    refine ⟨?_, ?_, hq'⟩
    · simp [strqueue_size, hq']
    · rw [strqueue_get_at_eq _ _ _ _ hq']
      rfl
  · intro hnone
    simp [strqueue_clear, hnone]

theorem strqueue_clear_spec_witness :
    (strqueue_size 0 (strqueue_clear 0 regSample) = 0 ∧
      strqueue_get_at 0 0 (strqueue_clear 0 regSample) = none ∧
      (strqueue_clear 0 regSample).queues 0 = some []) ∧
    strqueue_clear 9 regSample = regSample := by
  constructor
  · exact (strqueue_clear_spec regSample 0).1 [[97]] rfl
  · exact (strqueue_clear_spec regSample 9).2 rfl

/-- C7: on a live handle, inserting a (non-null) value at `p` and then
reading at the value's resulting position returns that value; the resulting
position is the pre-insert size when `p` is greater than or equal to it
(append), and `p` itself otherwise. -/
theorem insert_then_get_spec (s : Registry) (h p : Nat) (v : Str)
    (q : List Str) (hq : s.queues h = some q) :
    strqueue_get_at h (if q.length ≤ p then q.length else p)
      (strqueue_insert_at h p (some v) s) = some v := by
  by_cases hle : q.length ≤ p
  · have hq' : (strqueue_insert_at h p (some v) s).queues h =
        some (q ++ [v]) := by
      rw [strqueue_insert_at_queues_self s h p v q hq, if_pos hle]
    rw [if_pos hle, strqueue_get_at_eq _ _ _ _ hq',
      dequeGetAt_append_self q v]
  · have hq' : (strqueue_insert_at h p (some v) s).queues h =
        some (dequeInsertAt q p v) := by
      rw [strqueue_insert_at_queues_self s h p v q hq, if_neg hle]
    rw [if_neg hle, strqueue_get_at_eq _ _ _ _ hq',
      dequeGetAt_insertAt_self q p v (Nat.le_of_not_le hle)]

theorem insert_then_get_spec_witness :
    strqueue_get_at 0 1
      (strqueue_insert_at 0 4 (some [120]) regSample) = some [120] := by
  have := insert_then_get_spec regSample 0 4 [120] [[97]] rfl
  simpa using this

/-- C10: an operation addressed to handle `h` never disturbs a different
handle `h'`: after `strqueue_delete`, `strqueue_insert_at`,
`strqueue_remove_at` or `strqueue_clear` on `h`, the registry entry of `h'`
(existence and contents, hence also its size) is exactly what it was.  The
read-only operations `strqueue_size`, `strqueue_get_at` and `strqueue_comp`
are embedded as pure functions of the state — the source consults the map
with `find` only, never `operator[]` — so they cannot mutate anything and in
particular querying an unknown handle creates no entry for it. -/
theorem frame_other_handles_spec (s : Registry) (h h' : Nat) (hne : h ≠ h') :
    ((strqueue_delete h s).queues h' = s.queues h') ∧
    (∀ p v, (strqueue_insert_at h p v s).queues h' = s.queues h') ∧
    (∀ p, (strqueue_remove_at h p s).queues h' = s.queues h') ∧
    ((strqueue_clear h s).queues h' = s.queues h') := by
  have hne' : h' ≠ h := Ne.symm hne
  refine ⟨?_, ?_, ?_, ?_⟩
  · unfold strqueue_delete
    cases hq : s.queues h with
    | none => rfl
    | some q => exact mapErase_other s.queues h h' hne'
  · intro p v
    unfold strqueue_insert_at
    cases hq : s.queues h with
    | none => cases v <;> rfl
    | some q =>
      cases v with
      | none => rfl
      | some w => exact mapUpdate_other s.queues h h' _ hne'
  · intro p
    cases hq : s.queues h with
    | none => simp [strqueue_remove_at, hq]
    | some q =>
      by_cases hle : q.length ≤ p
      · simp [strqueue_remove_at, hq, hle]
      · simp only [strqueue_remove_at, hq, if_neg hle]
        exact mapUpdate_other s.queues h h' _ hne'
  · unfold strqueue_clear
    cases hq : s.queues h with
    | none => rfl
    | some q => exact mapUpdate_other s.queues h h' [] hne'

theorem frame_other_handles_spec_witness :
    ((strqueue_delete 1 regSample).queues 0 = regSample.queues 0) ∧
    (∀ p v, (strqueue_insert_at 1 p v regSample).queues 0 =
      regSample.queues 0) ∧
    (∀ p, (strqueue_remove_at 1 p regSample).queues 0 =
      regSample.queues 0) ∧
    ((strqueue_clear 1 regSample).queues 0 = regSample.queues 0) :=
  frame_other_handles_spec regSample 1 0 (by decide)

/-- `strqueue_comp` reports -1 exactly when the first (defaulted) queue is
`operator<`-below the second. -/
theorem strqueue_comp_eq_neg_one_iff (s : Registry) (id1 id2 : Nat) :
    strqueue_comp id1 id2 s = -1 ↔
      deqLt ((s.queues id1).getD []) ((s.queues id2).getD []) = true := by
  unfold strqueue_comp
  by_cases h1 : deqLt ((s.queues id1).getD []) ((s.queues id2).getD []) = true
  · simp [h1]
  · by_cases h2 : deqLt ((s.queues id2).getD []) ((s.queues id1).getD []) =
        true
    · simp [h1, h2]
    · simp [h1, h2]

/-- C3: `strqueue_comp` computes exactly the three-way lexicographic order
of the two queues' string sequences (element-by-element by the byte-wise
string order, strict prefix less — `specQueueCmp`, written from the spec's
words), with an unknown handle standing for the empty queue; two unknown
handles compare equal, an unknown handle is below any non-empty queue, and
the result is always exactly one of -1/0/1.  The embedding of
`strqueue_comp` is a pure function of the state (the source only reads the
map through `const` references), so no state is mutated. -/
theorem strqueue_comp_lex_spec (s : Registry) (id1 id2 : Nat) :
    (strqueue_comp id1 id2 s =
      ordToInt (specQueueCmp ((s.queues id1).getD [])
        ((s.queues id2).getD []))) ∧
    (s.queues id1 = none → s.queues id2 = none →
      strqueue_comp id1 id2 s = 0) ∧
    (s.queues id1 = none → ∀ w q2, s.queues id2 = some (w :: q2) →
      strqueue_comp id1 id2 s = -1) ∧
    (strqueue_comp id1 id2 s = -1 ∨ strqueue_comp id1 id2 s = 0 ∨
      strqueue_comp id1 id2 s = 1) := by
  refine ⟨?_, ?_, ?_, ?_⟩
  · cases hc : specQueueCmp ((s.queues id1).getD []) ((s.queues id2).getD [])
      with
    | lt =>
      have hlt := (specQueueCmp_lt_iff _ _).mpr hc
      simp [strqueue_comp, hlt, ordToInt]
    | eq =>
      have hlt : deqLt ((s.queues id1).getD []) ((s.queues id2).getD []) =
          false := by
        cases hb : deqLt ((s.queues id1).getD []) ((s.queues id2).getD [])
          with
        | false => rfl
        | true => rw [(specQueueCmp_lt_iff _ _).mp hb] at hc; cases hc
      have hgt : deqLt ((s.queues id2).getD []) ((s.queues id1).getD []) =
          false := by
        cases hb : deqLt ((s.queues id2).getD []) ((s.queues id1).getD [])
          with
        | false => rfl
        | true => rw [(specQueueCmp_gt_iff _ _).mp hb] at hc; cases hc
      simp [strqueue_comp, hlt, hgt, ordToInt]
    | gt =>
      have hgt := (specQueueCmp_gt_iff _ _).mpr hc
      have hlt : deqLt ((s.queues id1).getD []) ((s.queues id2).getD []) =
          false := by
        cases hb : deqLt ((s.queues id1).getD []) ((s.queues id2).getD [])
          with
        | false => rfl
        | true => rw [(specQueueCmp_lt_iff _ _).mp hb] at hc; cases hc
      simp [strqueue_comp, hlt, hgt, ordToInt]
  · intro h1 h2
    simp [strqueue_comp, h1, h2, deqLt, lexLt]
  · intro h1 w q2 h2
    simp [strqueue_comp, h1, h2, deqLt, lexLt]
  · unfold strqueue_comp
    by_cases h1 : deqLt ((s.queues id1).getD []) ((s.queues id2).getD []) =
        true
    · simp [h1]
    · by_cases h2 : deqLt ((s.queues id2).getD []) ((s.queues id1).getD [])
          = true
      · simp [h1, h2]
      · simp [h1, h2]

theorem strqueue_comp_lex_spec_witness :
    strqueue_comp 5 0 regSample = -1 ∧ strqueue_comp 5 7 regSample = 0 := by
  constructor
  · exact (strqueue_comp_lex_spec regSample 5 0).2.2.1 rfl [97] [] rfl
  · exact (strqueue_comp_lex_spec regSample 5 7).2.1 rfl rfl

/-- C8: in every registry state `strqueue_comp` is reflexive (`comp h h`
is 0 for any handle, live or not), antisymmetric (`comp a b = -1` forces
`comp b a = 1`) and transitive on the "less" result. -/
theorem strqueue_comp_order_spec (s : Registry) (a b c : Nat) :
    strqueue_comp a a s = 0 ∧
    (strqueue_comp a b s = -1 → strqueue_comp b a s = 1) ∧
    (strqueue_comp a b s = -1 → strqueue_comp b c s = -1 →
      strqueue_comp a c s = -1) := by
  refine ⟨?_, ?_, ?_⟩
  · simp [strqueue_comp, deqLt_irrefl]
  · intro hab
    have hlt := (strqueue_comp_eq_neg_one_iff s a b).mp hab
    have hgt := deqLt_asymm _ _ hlt
    simp [strqueue_comp, hgt, hlt]
  · intro hab hbc
    have h1 := (strqueue_comp_eq_neg_one_iff s a b).mp hab
    have h2 := (strqueue_comp_eq_neg_one_iff s b c).mp hbc
    exact (strqueue_comp_eq_neg_one_iff s a c).mpr (deqLt_trans _ _ _ h1 h2)

theorem strqueue_comp_order_spec_witness :
    strqueue_comp 0 0 regSample = 0 ∧
    (strqueue_comp 3 0 regSample = -1 → strqueue_comp 0 3 regSample = 1) ∧
    (strqueue_comp 3 0 regSample = -1 → strqueue_comp 0 9 regSample = -1 →
      strqueue_comp 3 9 regSample = -1) :=
  strqueue_comp_order_spec regSample 3 0 9

/-! ### Counter evolution along traces -/

theorem strqueue_delete_cnt (id : Nat) (s : Registry) :
    (strqueue_delete id s).cnt = s.cnt := by
  unfold strqueue_delete
  cases s.queues id <;> rfl

theorem strqueue_insert_at_cnt (id p : Nat) (v : Option Str) (s : Registry) :
    (strqueue_insert_at id p v s).cnt = s.cnt := by
  unfold strqueue_insert_at
  cases s.queues id <;> cases v <;> rfl

theorem strqueue_remove_at_cnt (id p : Nat) (s : Registry) :
    (strqueue_remove_at id p s).cnt = s.cnt := by
  cases hq : s.queues id with
  | none => simp [strqueue_remove_at, hq]
  | some q =>
    by_cases hle : q.length ≤ p <;> simp [strqueue_remove_at, hq, hle]

theorem strqueue_clear_cnt (id : Nat) (s : Registry) :
    (strqueue_clear id s).cnt = s.cnt := by
  unfold strqueue_clear
  cases s.queues id <;> rfl

/-- Along any successfully completed trace, the handles handed out by
`strqueue_new` are exactly `cnt₀, cnt₀ + 1, …` from the starting counter:
deletions (and every other operation) never make a handle available again. -/
theorem runOps_handles : ∀ (ops : List Op) (s s' : Registry) (hs : List Nat),
    runOps s ops = some (s', hs) →
    hs = List.map (fun i => s.cnt + i) (List.range hs.length) := by
  intro ops
  induction ops with
  | nil =>
    intro s s' hs h
    simp only [runOps, Option.some.injEq, Prod.mk.injEq] at h
    rw [← h.2]
    rfl
  | cons op rest ih =>
    cases op with
    | opNew =>
      intro s s' hs h
      cases hn : strqueue_new s with
      | none =>
        simp only [runOps, hn] at h
        exact Option.noConfusion h
      | some pr =>
        obtain ⟨hd, s1⟩ := pr
        cases hr : runOps s1 rest with
        | none =>
          simp only [runOps, hn, hr] at h
          exact Option.noConfusion h
        | some pr2 =>
          obtain ⟨s2, hs2⟩ := pr2
          simp only [runOps, hn, hr, Option.some.injEq, Prod.mk.injEq] at h
          obtain ⟨-, hhs⟩ := h
          unfold strqueue_new at hn
          by_cases hcnt : s.cnt < ULONG_MAX
          · rw [if_pos hcnt] at hn
            simp only [Option.some.injEq, Prod.mk.injEq] at hn
            obtain ⟨hhd, hs1⟩ := hn
            have hcnt1 : s1.cnt = s.cnt + 1 := by rw [← hs1]
            have htail := ih s1 s2 hs2 hr
            rw [← hhs, htail]
            rw [List.length_cons]
            have hlen : (List.map (fun i => s1.cnt + i)
                (List.range hs2.length)).length = hs2.length := by
              simp
            rw [hlen, List.range_succ_eq_map, List.map_cons, List.map_map]
            have hfun : ((fun i => s.cnt + i) ∘ Nat.succ) =
                fun i => s1.cnt + i := by
              funext i
              simp [hcnt1]
              omega
            rw [hfun, ← hhd]
            simp
          · rw [if_neg hcnt] at hn
            cases hn
    | opDelete id =>
      intro s s' hs h
      simp only [runOps] at h
      have := ih (strqueue_delete id s) s' hs h
      rwa [strqueue_delete_cnt] at this
    | opInsertAt id p v =>
      intro s s' hs h
      simp only [runOps] at h
      have := ih (strqueue_insert_at id p v s) s' hs h
      rwa [strqueue_insert_at_cnt] at this
    | opRemoveAt id p =>
      intro s s' hs h
      simp only [runOps] at h
      have := ih (strqueue_remove_at id p s) s' hs h
      rwa [strqueue_remove_at_cnt] at this
    | opClear id =>
      intro s s' hs h
      simp only [runOps] at h
      have := ih (strqueue_clear id s) s' hs h
      rwa [strqueue_clear_cnt] at this

/-- C4: over any sequence of operations run from the pristine registry, the
handles returned by the successive successful `strqueue_new` calls are
`0, 1, 2, …`: they start at 0, grow by exactly 1 per creation, are strictly
increasing, and never repeat — no matter how many deletions happen in
between. -/
theorem handles_monotonic_spec (ops : List Op) (hs : List Nat)
    (h : (runOps initRegistry ops).map Prod.snd = some hs) :
    hs = List.range hs.length ∧ List.Pairwise (· < ·) hs ∧ hs.Nodup ∧
    ∀ i, i < hs.length → hs[i]? = some i := by
  have h0 : hs = List.range hs.length := by
    cases hr : runOps initRegistry ops with
    | none => rw [hr] at h; cases h
    | some pr =>
      obtain ⟨s', hs'⟩ := pr
      rw [hr] at h
      simp only [Option.map_some', Option.some.injEq] at h
      have := runOps_handles ops initRegistry s' hs' hr
      rw [← h]
      simpa [initRegistry] using this
  refine ⟨h0, ?_, ?_, ?_⟩
  · rw [h0]
    exact List.pairwise_lt_range _
  · rw [h0]
    exact List.nodup_range _
  · intro i hi
    conv_lhs => rw [h0]
    exact List.getElem?_range hi

theorem handles_monotonic_spec_witness :
    ([0, 1, 2] : List Nat) = List.range ([0, 1, 2] : List Nat).length ∧
    List.Pairwise (· < ·) ([0, 1, 2] : List Nat) ∧
    ([0, 1, 2] : List Nat).Nodup ∧
    ∀ i, i < ([0, 1, 2] : List Nat).length →
      ([0, 1, 2] : List Nat)[i]? = some i :=
  handles_monotonic_spec
    [Op.opNew, Op.opDelete 0, Op.opNew, Op.opInsertAt 1 0 (some [97]),
      Op.opNew]
    [0, 1, 2] rfl

/-- C9: once the allocation counter has reached
`numeric_limits<unsigned long>::max()`, the next `strqueue_new` fails its
`assert` — modelled as the abnormal result `none` — instead of wrapping the
counter or handing out any (necessarily reused) handle. -/
theorem new_exhaustion_spec (s : Registry) (h : s.cnt = ULONG_MAX) :
    strqueue_new s = none := by
  unfold strqueue_new
  rw [h]
  simp

theorem new_exhaustion_spec_witness :
    strqueue_new ⟨ULONG_MAX, fun _ => none⟩ = none :=
  new_exhaustion_spec ⟨ULONG_MAX, fun _ => none⟩ rfl
